import Mathlib

/-!
Shallow embedding of the `slab` crate (`src/lib.rs`): a fixed-capacity slab
allocator made of `Chunk`s (a free-bit mask plus `usize::BITS` cells), a
`SlabAllocator` holding an array of chunks, and an owning handle `Box`.

The machine word width `usize::BITS` is embedded as a parameter `W : Nat`;
a `usize` value is a `Nat` (well-formed states keep masks `< 2 ^ W`).
Raw pointers held by `Box` (`chunk: *mut Chunk<T>`, `inner: *mut T`) are
embedded as stable indices (chunk index, cell index) into the pool, and the
pool state is threaded explicitly through the mutating operations.
`Option`-returning Rust functions map to `Option`; the two `unwrap` calls
inside `SlabAllocator::boxed` are embedded as `none` fall-through branches
(they are proved unreachable below).
-/

namespace Slab

/-- Embedding of Rust `usize::leading_zeros()` for a `W`-bit word:
the number of consecutive zero bits of `m` starting from bit `W - 1`
(the most significant bit), scanning downward. -/
def leadingZeros : Nat → Nat → Nat
  | 0, _ => 0
  | w + 1, m => if m.testBit w then 0 else leadingZeros w m + 1

/-- `const fn alloc_mask(pos: u8) -> usize`:
`usize::MAX ^ (1 << ((usize::BITS - 1) - pos))` — all ones except the bit
for cell `pos` (MSB-first). -/
def alloc_mask (W : Nat) (pos : Nat) : Nat :=
  (2 ^ W - 1) ^^^ (1 <<< (W - 1 - pos))

/-- `const fn free_mask(pos: u8) -> usize`:
`!usize::MAX ^ (1 << ((usize::BITS - 1) - pos))` = `1 << (W - 1 - pos)` —
exactly the bit for cell `pos` (MSB-first). -/
def free_mask (W : Nat) (pos : Nat) : Nat :=
  (0 : Nat) ^^^ (1 <<< (W - 1 - pos))

/-- `struct Chunk<T> { free_list: usize, inner: [T; usize::BITS] }`.
A set bit in `free_list` marks a free cell; cell 0 is the most significant
bit. `inner` is the cell storage (length `W` in well-formed states). -/
structure Chunk (V : Type) (W : Nat) where
  free_list : Nat
  inner : List V
  deriving Repr, DecidableEq

/-- `Chunk::first_free`: the index of the first free cell, i.e. the number
of leading zero bits of `free_list`; `none` when that count is `ELEMS` (= W,
the chunk is full). -/
def Chunk.first_free {V : Type} {W : Nat} (c : Chunk V W) : Option Nat :=
  let lz := leadingZeros W c.free_list
  if lz = W then none else some lz

/-- `Chunk::empty`: `free_list == usize::MAX`. -/
def Chunk.empty {V : Type} {W : Nat} (c : Chunk V W) : Bool :=
  c.free_list == 2 ^ W - 1

/-- `Chunk::full`: `free_list == usize::MIN` (= 0). -/
def Chunk.full {V : Type} {W : Nat} (c : Chunk V W) : Bool :=
  c.free_list == 0

/-- `Chunk::new`: a fully free chunk (`free_list = usize::MAX`). The Rust
code leaves `inner` uninitialized (`MaybeUninit::uninit().assume_init()`);
the embedding takes the arbitrary initial cell contents as a parameter. -/
def Chunk.new (V : Type) (W : Nat) (junk : V) : Chunk V W :=
  { free_list := 2 ^ W - 1, inner := List.replicate W junk }

/-- The handle `struct Box<T> { free_mask: usize, chunk: *mut Chunk<T>,
inner: *mut T }`. The two raw pointers are embedded as the chunk index in
the pool and the cell index in that chunk. -/
structure BoxT where
  free_mask : Nat
  chunkIdx : Nat
  cellIdx : Nat
  deriving Repr, DecidableEq

/-- `struct SlabAllocator<T, const N: usize> { chunks: [Chunk<T>; N] }`.
Well-formed states have `chunks.length = N`. -/
structure SlabAllocator (V : Type) (W N : Nat) where
  chunks : List (Chunk V W)
  deriving Repr, DecidableEq

/-- `SlabAllocator::new` / `Default::default`: `N` fresh chunks. -/
def SlabAllocator.new (V : Type) (W N : Nat) (junk : V) : SlabAllocator V W N :=
  { chunks := List.replicate N (Chunk.new V W junk) }

/-- `SlabAllocator::CHUNK_MAX = usize::BITS as u8 - 1`. -/
def CHUNK_MAX (W : Nat) : Nat := W - 1

/-- `SlabAllocator::borrow_chunk`: `self.chunks.get(offset)`. -/
def SlabAllocator.borrow_chunk {V : Type} {W N : Nat}
    (s : SlabAllocator V W N) (offset : Nat) : Option (Chunk V W) :=
  s.chunks[offset]?

/-- The loop body of `SlabAllocator::find_chunk_with_space`, iterating
`fuel` times starting at offset `i`: `self.borrow_chunk(offset)?` early
returns `none`, a non-full chunk returns its offset. -/
def findFrom {V : Type} {W : Nat} (chunks : List (Chunk V W)) : Nat → Nat → Option Nat
  | _, 0 => none
  | i, fuel + 1 =>
    match chunks[i]? with
    | none => none
    | some c => if c.full then findFrom chunks (i + 1) fuel else some i

/-- `SlabAllocator::find_chunk_with_space`: scan offsets
`0..(CHUNK_MAX as usize)` for the first chunk that is not full. -/
def SlabAllocator.find_chunk_with_space {V : Type} {W N : Nat}
    (s : SlabAllocator V W N) : Option Nat :=
  findFrom s.chunks 0 (CHUNK_MAX W)

/-- `SlabAllocator::boxed(value)`: find a chunk with space, take its first
free cell, write `value` there, clear the cell's free bit, and return the
handle together with the updated pool. The `unwrap`s on `borrow_chunk_mut`
and `first_free` are embedded as `none` branches (proved unreachable). -/
def SlabAllocator.boxed {V : Type} {W N : Nat}
    (s : SlabAllocator V W N) (value : V) :
    Option (BoxT × SlabAllocator V W N) :=
  s.find_chunk_with_space.bind fun offset =>
    (s.chunks[offset]?).bind fun chunk =>
      chunk.first_free.bind fun cellOff =>
        let chunk2 : Chunk V W :=
          { free_list := chunk.free_list &&& alloc_mask W cellOff
            inner := chunk.inner.set cellOff value }
        some (⟨free_mask W cellOff, offset, cellOff⟩,
              ⟨s.chunks.set offset chunk2⟩)

/-- `<SlabAllocator as &mut self>.boxed` with the Rust calling shape: the
pool is returned unchanged when allocation fails. -/
def SlabAllocator.allocStep {V : Type} {W N : Nat}
    (s : SlabAllocator V W N) (value : V) :
    Option BoxT × SlabAllocator V W N :=
  match s.boxed value with
  | none => (none, s)
  | some (b, s2) => (some b, s2)

/-- `impl Drop for Box`: `chunk.free_list |= self.free_mask`. -/
def SlabAllocator.dropBox {V : Type} {W N : Nat}
    (s : SlabAllocator V W N) (b : BoxT) : SlabAllocator V W N :=
  match s.chunks[b.chunkIdx]? with
  | none => s
  | some c =>
    ⟨s.chunks.set b.chunkIdx { c with free_list := c.free_list ||| b.free_mask }⟩

/-- `Box::as_ref` (and `Deref`): read the cell the handle points at. -/
def SlabAllocator.readBox {V : Type} {W N : Nat}
    (s : SlabAllocator V W N) (b : BoxT) : Option V :=
  (s.chunks[b.chunkIdx]?).bind fun c => c.inner[b.cellIdx]?

/-- `Box::as_mut` (and `DerefMut`) followed by a store: overwrite the cell
the handle points at. -/
def SlabAllocator.writeBox {V : Type} {W N : Nat}
    (s : SlabAllocator V W N) (b : BoxT) (v : V) : SlabAllocator V W N :=
  match s.chunks[b.chunkIdx]? with
  | none => s
  | some c => ⟨s.chunks.set b.chunkIdx { c with inner := c.inner.set b.cellIdx v }⟩

/-- Masks of all chunks are in range and every chunk has `W` cells. -/
def WF {V : Type} {W N : Nat} (s : SlabAllocator V W N) : Prop :=
  s.chunks.length = N ∧
    ∀ c ∈ s.chunks, c.free_list < 2 ^ W ∧ c.inner.length = W

/-- Chunk masks of a pool state are in range for `W` bits. -/
def masksLT {V : Type} {W N : Nat} (s : SlabAllocator V W N) : Prop :=
  ∀ c ∈ s.chunks, c.free_list < 2 ^ W

/-- Run a sequence of `boxed` calls (one per value, handles discarded),
returning the number of successful allocations and the final pool. -/
def allocRun {V : Type} {W N : Nat} (s : SlabAllocator V W N) :
    List V → Nat × SlabAllocator V W N
  | [] => (0, s)
  | v :: vs =>
    match s.boxed v with
    | none => allocRun s vs
    | some (_, s2) =>
      let r := allocRun s2 vs
      (r.1 + 1, r.2)

/-- Number of free cells recorded in a `W`-bit mask (count of set bits
among positions `0..W-1`). -/
def maskFree (W m : Nat) : Nat :=
  (Finset.range W).sum fun k => if m.testBit k then 1 else 0

/-- Total number of free cells across the pool. -/
def poolFree {V : Type} {W N : Nat} (s : SlabAllocator V W N) : Nat :=
  (s.chunks.map fun c => maskFree W c.free_list).sum

/-- Bitwise or of a list of masks. -/
def listOr (l : List Nat) : Nat := l.foldr (· ||| ·) 0

/-- Release (drop) every handle of the given `free_mask`s on one chunk, in
list order: each drop performs `free_list |= mask`. -/
def releaseAll {V : Type} {W : Nat} (c : Chunk V W) (masks : List Nat) :
    Chunk V W :=
  masks.foldl (fun c2 m => { c2 with free_list := c2.free_list ||| m }) c

/-- Modelled from the spec: the count of leading one-bits of `m` viewed as
a `W`-bit word — the spec's stated formula for `first_free` ("the count of
leading one-bits in `free_mask`"), kept for comparison with the code's
`leading_zeros` computation. -/
def leadingOnes (W m : Nat) : Nat :=
  leadingZeros W ((2 ^ W - 1) ^^^ m)

/-! ### Client-visible transition system

A state is the pool plus the list of live handles; the operations are the
public ones: `allocate` (`boxed`), handle read (`as_ref`, pure, hence not
a transition), handle write (`as_mut` + store), handle clone (the derived
`Clone` on `Box`, a plain field-for-field copy), and handle drop. -/

structure SysState (V : Type) (W N : Nat) where
  pool : SlabAllocator V W N
  live : List BoxT
  deriving Repr, DecidableEq

inductive Op (V : Type) where
  | alloc (v : V)
  | dropH (i : Nat)
  | cloneH (i : Nat)
  | write (i : Nat) (v : V)
  deriving Repr, DecidableEq

/-- One public operation. Operations addressing a dead / out-of-range
handle index leave the state unchanged. -/
def step {V : Type} {W N : Nat} (st : SysState V W N) : Op V → SysState V W N
  | .alloc v =>
    match st.pool.boxed v with
    | none => st
    | some (b, p2) => ⟨p2, b :: st.live⟩
  | .dropH i =>
    match st.live[i]? with
    | none => st
    | some b => ⟨st.pool.dropBox b, st.live.eraseIdx i⟩
  | .cloneH i =>
    match st.live[i]? with
    | none => st
    | some b => ⟨st.pool, b :: st.live⟩
  | .write i v =>
    match st.live[i]? with
    | none => st
    | some b => ⟨st.pool.writeBox b v, st.live⟩

def run {V : Type} {W N : Nat} (st : SysState V W N) :
    List (Op V) → SysState V W N
  | [] => st
  | op :: ops => run (step st op) ops

/-- A freshly constructed pool with no live handles. -/
def initState (V : Type) (W N : Nat) (junk : V) : SysState V W N :=
  ⟨SlabAllocator.new V W N junk, []⟩

/-- No two handles in the list reference the same (chunk, cell) pair. -/
def distinctCells : List BoxT → Bool
  | [] => true
  | b :: rest =>
    (rest.all fun b2 =>
      !(b.chunkIdx == b2.chunkIdx && b.cellIdx == b2.cellIdx)) &&
      distinctCells rest

/-- At most one live handle exists per cell. -/
def AtMostOneHandlePerCell {V : Type} {W N : Nat} (st : SysState V W N) : Prop :=
  distinctCells st.live = true

/-- A live handle is well-formed for the pool: its cell index is in range,
its `free_mask` is the cell's bit, and its cell's free bit is cleared. -/
def HandleOK {V : Type} {W N : Nat} (p : SlabAllocator V W N) (b : BoxT) : Prop :=
  b.cellIdx < W ∧ b.free_mask = free_mask W b.cellIdx ∧
    ∃ c, p.chunks[b.chunkIdx]? = some c ∧
      c.free_list.testBit (W - 1 - b.cellIdx) = false

/-- Invariant of the transition system (in the absence of `cloneH`). -/
def Inv {V : Type} {W N : Nat} (st : SysState V W N) : Prop :=
  masksLT st.pool ∧
    (∀ b ∈ st.live, HandleOK st.pool b) ∧
    st.live.Pairwise fun a b =>
      ¬(a.chunkIdx = b.chunkIdx ∧ a.cellIdx = b.cellIdx)

/-- A 64-chunk pool (on a 64-bit word) whose first 63 chunks are full and
whose last chunk is fully free: the allocation scan stops after
`CHUNK_MAX = 63` probes and never reaches chunk 63. -/
def poolCap : SlabAllocator Nat 64 64 :=
  ⟨List.replicate 63 ⟨0, List.replicate 64 0⟩ ++
    [⟨2 ^ 64 - 1, List.replicate 64 0⟩]⟩

/-! ### Bit-level helper lemmas -/

theorem leadingZeros_zero (W : Nat) : leadingZeros W 0 = W := by
  induction W with
  | zero => rfl
  | succ w ih =>
    rw [leadingZeros, Nat.zero_testBit]
    simp [ih]

theorem leadingZeros_le (W m : Nat) : leadingZeros W m ≤ W := by
  induction W with
  | zero => exact le_refl _
  | succ w ih =>
    rw [leadingZeros]
    by_cases h : m.testBit w
    · simp [h]
    · rw [if_neg h]
      omega

theorem testBit_ge_width {W m k : Nat} (hm : m < 2 ^ W) (hk : W ≤ k) :
    m.testBit k = false :=
  Nat.testBit_lt_two_pow
    (lt_of_lt_of_le hm (Nat.pow_le_pow_right (by decide) hk))

theorem leadingZeros_lt {W m : Nat} (hm : m ≠ 0) (hmW : m < 2 ^ W) :
    leadingZeros W m < W := by
  induction W with
  | zero =>
    exact absurd (Nat.lt_one_iff.1 hmW) hm
  | succ w ih =>
    rw [leadingZeros]
    by_cases h : m.testBit w
    · simp [h]
    · rw [if_neg h]
      have hb2 : m.testBit w = false := Bool.eq_false_iff.2 h
      have hm2 : m < 2 ^ w := by
        by_contra hc
        push_neg at hc
        obtain ⟨i, hi, hbit⟩ := Nat.ge_two_pow_implies_high_bit_true hc
        rcases Nat.eq_or_lt_of_le hi with rfl | hgt
        · rw [hb2] at hbit
          exact Bool.false_ne_true hbit
        · rw [testBit_ge_width hmW hgt] at hbit
          exact Bool.false_ne_true hbit
      have := ih hm2
      omega

theorem testBit_leadingZeros {W m : Nat} (h : leadingZeros W m < W) :
    m.testBit (W - 1 - leadingZeros W m) = true := by
  induction W with
  | zero => exact absurd h (lt_irrefl 0)
  | succ w ih =>
    rw [leadingZeros]
    by_cases hb : m.testBit w
    · rw [if_pos hb]
      simpa using hb
    · rw [leadingZeros, if_neg hb] at h
      rw [if_neg hb]
      have hlz : leadingZeros w m < w := by omega
      have hidx : w + 1 - 1 - (leadingZeros w m + 1) = w - 1 - leadingZeros w m := by
        omega
      rw [hidx]
      exact ih hlz

theorem testBit_lt_leadingZeros {W m : Nat} :
    ∀ j, j < leadingZeros W m → m.testBit (W - 1 - j) = false := by
  induction W with
  | zero =>
    intro j hj
    exact absurd hj (by simp [leadingZeros])
  | succ w ih =>
    intro j hj
    rw [leadingZeros] at hj
    by_cases hb : m.testBit w
    · rw [if_pos hb] at hj
      exact absurd hj (Nat.not_lt_zero j)
    · rw [if_neg hb] at hj
      cases j with
      | zero => simpa using hb
      | succ j2 =>
        have hidx : w + 1 - 1 - (j2 + 1) = w - 1 - j2 := by omega
        rw [hidx]
        exact ih j2 (by omega)

theorem free_mask_eq (W pos : Nat) : free_mask W pos = 2 ^ (W - 1 - pos) := by
  simp [free_mask, Nat.shiftLeft_eq]

theorem alloc_mask_testBit {W pos k : Nat} (hW : 0 < W) :
    (alloc_mask W pos).testBit k =
      (decide (k < W) && !(decide (k = W - 1 - pos))) := by
  rw [alloc_mask, Nat.shiftLeft_eq, one_mul, Nat.testBit_xor,
    Nat.testBit_two_pow_sub_one]
  by_cases h : k = W - 1 - pos
  · subst h
    simp [Nat.testBit_two_pow_self]
    omega
  · rw [Nat.testBit_two_pow_of_ne (fun hc => h hc.symm)]
    simp [h]

theorem and_alloc_mask_testBit {W pos m k : Nat} (hW : 0 < W) (hm : m < 2 ^ W) :
    (m &&& alloc_mask W pos).testBit k =
      (m.testBit k && !(decide (k = W - 1 - pos))) := by
  rw [Nat.testBit_and, alloc_mask_testBit hW]
  by_cases hkW : k < W
  · simp [hkW]
  · have hz : m.testBit k = false := testBit_ge_width hm (le_of_not_lt hkW)
    simp [hz, hkW]

theorem or_two_pow_testBit {m j k : Nat} :
    (m ||| 2 ^ j).testBit k = (m.testBit k || decide (j = k)) := by
  rw [Nat.testBit_or]
  by_cases h : j = k
  · subst h
    simp [Nat.testBit_two_pow_self]
  · rw [Nat.testBit_two_pow_of_ne h]
    simp [h]

/-! ### `first_free` characterization -/

theorem first_free_eq_none_iff {V : Type} {W : Nat} (c : Chunk V W)
    (hmW : c.free_list < 2 ^ W) : c.first_free = none ↔ c.free_list = 0 := by
  unfold Chunk.first_free
  constructor
  · intro h
    by_contra hm
    rw [if_neg (Nat.ne_of_lt (leadingZeros_lt hm hmW))] at h
    exact Option.some_ne_none _ h
  · intro h
    rw [h, leadingZeros_zero]
    simp

theorem first_free_eq_some_elim {V : Type} {W : Nat} {c : Chunk V W} {k : Nat}
    (h : c.first_free = some k) :
    c.free_list ≠ 0 ∧ k = leadingZeros W c.free_list := by
  unfold Chunk.first_free at h
  by_cases hlz : leadingZeros W c.free_list = W
  · rw [if_pos hlz] at h
    exact absurd h (by simp)
  · rw [if_neg hlz] at h
    refine ⟨fun hm => ?_, (Option.some_inj.1 h).symm⟩
    rw [hm, leadingZeros_zero] at hlz
    exact hlz rfl

theorem first_free_isSome_of_not_full {V : Type} {W : Nat} {c : Chunk V W}
    (hmW : c.free_list < 2 ^ W) (h : c.full = false) :
    c.first_free.isSome = true := by
  have hm : c.free_list ≠ 0 := by
    simpa [Chunk.full] using h
  unfold Chunk.first_free
  rw [if_neg (Nat.ne_of_lt (leadingZeros_lt hm hmW))]
  rfl

/-! ### `find_chunk_with_space` characterization -/

theorem findFrom_succ_none {V : Type} {W : Nat} {chunks : List (Chunk V W)}
    {i fuel : Nat} (hc : chunks[i]? = none) :
    findFrom chunks i (fuel + 1) = none := by
  rw [findFrom, hc]

theorem findFrom_succ_some {V : Type} {W : Nat} {chunks : List (Chunk V W)}
    {i fuel : Nat} {c : Chunk V W} (hc : chunks[i]? = some c) :
    findFrom chunks i (fuel + 1) =
      if c.full = true then findFrom chunks (i + 1) fuel else some i := by
  rw [findFrom, hc]

theorem findFrom_some_elim {V : Type} {W : Nat} {chunks : List (Chunk V W)}
    {fuel i r : Nat} (h : findFrom chunks i fuel = some r) :
    i ≤ r ∧ r < i + fuel ∧
      (∃ c, chunks[r]? = some c ∧ c.full = false) ∧
      ∀ j, i ≤ j → j < r → ∃ c, chunks[j]? = some c ∧ c.full = true := by
  induction fuel generalizing i with
  | zero => simp [findFrom] at h
  | succ fuel ih =>
    cases hc : chunks[i]? with
    | none => rw [findFrom_succ_none hc] at h; exact absurd h (by simp)
    | some c =>
      rw [findFrom_succ_some hc] at h
      by_cases hf : c.full = true
      · rw [if_pos hf] at h
        obtain ⟨h1, h2, h3, h4⟩ := ih h
        refine ⟨by omega, by omega, h3, ?_⟩
        intro j hj1 hj2
        rcases Nat.eq_or_lt_of_le hj1 with he | hl
        · exact ⟨c, he ▸ hc, hf⟩
        · exact h4 j hl hj2
      · rw [if_neg hf] at h
        have hri : i = r := Option.some_inj.1 h
        subst hri
        exact ⟨le_refl _, by omega, ⟨c, hc, Bool.eq_false_iff.2 hf⟩,
          fun j hj1 hj2 => absurd (lt_of_le_of_lt hj1 hj2) (lt_irrefl _)⟩

theorem findFrom_none_iff {V : Type} {W : Nat} {chunks : List (Chunk V W)}
    {fuel i : Nat} :
    findFrom chunks i fuel = none ↔
      ∀ j, i ≤ j → j < i + fuel → j < chunks.length →
        ∃ c, chunks[j]? = some c ∧ c.full = true := by
  induction fuel generalizing i with
  | zero =>
    simp only [findFrom, true_iff]
    intro j h1 h2
    omega
  | succ fuel ih =>
    cases hc : chunks[i]? with
    | none =>
      have hlen : chunks.length ≤ i := List.getElem?_eq_none_iff.1 hc
      rw [findFrom_succ_none hc]
      simp only [true_iff]
      intro j hj1 hj2 hj3
      omega
    | some c =>
      have hlen : i < chunks.length := (List.getElem?_eq_some.1 hc).1
      rw [findFrom_succ_some hc]
      by_cases hf : c.full = true
      · rw [if_pos hf, ih]
        constructor
        · intro h j hj1 hj2 hj3
          rcases Nat.eq_or_lt_of_le hj1 with he | hl
          · exact ⟨c, he ▸ hc, hf⟩
          · exact h j hl (by omega) hj3
        · intro h j hj1 hj2 hj3
          exact h j (by omega) (by omega) hj3
      · rw [if_neg hf]
        constructor
        · intro h
          exact absurd h (by simp)
        · intro h
          exfalso
          obtain ⟨c2, hc2, hfull2⟩ := h i (le_refl _) (by omega) hlen
          rw [hc] at hc2
          exact hf (Option.some_inj.1 hc2 ▸ hfull2)

theorem findFrom_none_of_all_full {V : Type} {W : Nat}
    {chunks : List (Chunk V W)} (h : ∀ c ∈ chunks, c.full = true)
    (i fuel : Nat) : findFrom chunks i fuel = none := by
  rw [findFrom_none_iff]
  intro j _ _ hj3
  exact ⟨chunks[j], List.getElem?_eq_getElem hj3,
    h _ (List.getElem_mem hj3)⟩

/-! ### `boxed` characterization -/

theorem boxed_some_elim {V : Type} {W N : Nat} {s : SlabAllocator V W N}
    {v : V} {b : BoxT} {s2 : SlabAllocator V W N}
    (h : s.boxed v = some (b, s2)) :
    ∃ chunk, s.find_chunk_with_space = some b.chunkIdx ∧
      s.chunks[b.chunkIdx]? = some chunk ∧
      chunk.first_free = some b.cellIdx ∧
      b.free_mask = free_mask W b.cellIdx ∧
      s2.chunks = s.chunks.set b.chunkIdx
        { free_list := chunk.free_list &&& alloc_mask W b.cellIdx
          inner := chunk.inner.set b.cellIdx v } := by
  unfold SlabAllocator.boxed at h
  simp only [Option.bind_eq_some] at h
  obtain ⟨offset, hf, chunk, hc, cellOff, hff, h⟩ := h
  simp only [Option.some_inj, Prod.mk.injEq] at h
  obtain ⟨hb, hs⟩ := h
  subst hb
  exact ⟨chunk, hf, hc, hff, rfl, (congrArg SlabAllocator.chunks hs).symm⟩

theorem boxed_none_of_find_none {V : Type} {W N : Nat}
    {s : SlabAllocator V W N} (v : V) (h : s.find_chunk_with_space = none) :
    s.boxed v = none := by
  unfold SlabAllocator.boxed
  rw [h]
  rfl

theorem boxed_eq_none_iff {V : Type} {W N : Nat} {s : SlabAllocator V W N}
    {v : V} (hmlt : masksLT s) :
    s.boxed v = none ↔ s.find_chunk_with_space = none := by
  constructor
  · intro h
    cases hf : s.find_chunk_with_space with
    | none => rfl
    | some offset =>
      exfalso
      obtain ⟨h1, h2, ⟨c, hc, hfull⟩, -⟩ := findFrom_some_elim hf
      have hclt : c.free_list < 2 ^ W :=
        hmlt c (List.mem_iff_getElem?.2 ⟨_, hc⟩)
      obtain ⟨cellOff, hff⟩ :=
        Option.isSome_iff_exists.1 (first_free_isSome_of_not_full hclt hfull)
      unfold SlabAllocator.boxed at h
      rw [hf] at h
      simp only [Option.some_bind, hc, hff] at h
      exact Option.noConfusion h
  · exact boxed_none_of_find_none v

/-! ### Counting free cells -/

theorem maskFree_all_ones (W : Nat) : maskFree W (2 ^ W - 1) = W := by
  unfold maskFree
  rw [Finset.sum_congr rfl fun k hk => ?_, Finset.sum_const, smul_eq_mul,
    mul_one, Finset.card_range]
  rw [Nat.testBit_two_pow_sub_one, if_pos]
  simp [Finset.mem_range.1 hk]

theorem maskFree_eq_zero {W m : Nat} (h : maskFree W m = 0) (hm : m < 2 ^ W) :
    m = 0 := by
  apply Nat.eq_of_testBit_eq
  intro i
  rw [Nat.zero_testBit]
  by_cases hi : i < W
  · unfold maskFree at h
    have hz := Finset.sum_eq_zero_iff.1 h i (Finset.mem_range.2 hi)
    by_contra hbit
    rw [Bool.not_eq_false] at hbit
    rw [hbit] at hz
    simp at hz
  · exact testBit_ge_width hm (le_of_not_lt hi)

theorem maskFree_clear_bit {W m pos : Nat} (hW : 0 < W) (hm : m < 2 ^ W)
    (hpos : W - 1 - pos < W)
    (hbit : m.testBit (W - 1 - pos) = true) :
    maskFree W (m &&& alloc_mask W pos) + 1 = maskFree W m := by
  unfold maskFree
  have hmem : W - 1 - pos ∈ Finset.range W := Finset.mem_range.2 hpos
  rw [Finset.sum_eq_sum_diff_singleton_add hmem
      (fun k => if (m &&& alloc_mask W pos).testBit k then 1 else 0),
    Finset.sum_eq_sum_diff_singleton_add hmem
      (fun k => if m.testBit k then 1 else 0)]
  rw [and_alloc_mask_testBit hW hm, hbit]
  simp only [decide_eq_true_eq, if_pos rfl, Bool.true_and]
  have hcong :
      ∑ k ∈ Finset.range W \ {W - 1 - pos},
          (if (m &&& alloc_mask W pos).testBit k then 1 else 0) =
        ∑ k ∈ Finset.range W \ {W - 1 - pos},
          (if m.testBit k then 1 else 0) := by
    refine Finset.sum_congr rfl fun k hk => ?_
    have hkne : k ≠ W - 1 - pos := (Finset.mem_sdiff.1 hk).2 ∘ Finset.mem_singleton.2
    rw [and_alloc_mask_testBit hW hm]
    simp [hkne]
  rw [hcong]
  simp

theorem sum_map_set {α : Type} (f : α → Nat) :
    ∀ (l : List α) (i : Nat) (x y : α), l[i]? = some x →
      ((l.set i y).map f).sum + f x = (l.map f).sum + f y := by
  intro l
  induction l with
  | nil => intro i x y hx; simp at hx
  | cons hd tl ih =>
    intro i x y hx
    cases i with
    | zero =>
      simp only [List.getElem?_cons_zero, Option.some_inj] at hx
      subst hx
      simp only [List.set_cons_zero, List.map_cons, List.sum_cons]
      omega
    | succ j =>
      simp only [List.getElem?_cons_succ] at hx
      have := ih j x y hx
      simp only [List.set_cons_succ, List.map_cons, List.sum_cons]
      omega

/-! ### Strong elimination for a successful `boxed` -/

theorem boxed_W_pos {V : Type} {W N : Nat} {s : SlabAllocator V W N}
    {v : V} {r : BoxT × SlabAllocator V W N}
    (h : s.boxed v = some r) : 0 < W := by
  unfold SlabAllocator.boxed at h
  obtain ⟨offset, hf, -⟩ := Option.bind_eq_some.1 h
  unfold SlabAllocator.find_chunk_with_space CHUNK_MAX at hf
  have := findFrom_some_elim hf
  omega

theorem boxed_some_strong {V : Type} {W N : Nat} {s : SlabAllocator V W N}
    {v : V} {b : BoxT} {s2 : SlabAllocator V W N}
    (hm : masksLT s) (h : s.boxed v = some (b, s2)) :
    0 < W ∧ b.cellIdx < W ∧ b.free_mask = free_mask W b.cellIdx ∧
      ∃ chunk, s.find_chunk_with_space = some b.chunkIdx ∧
        s.chunks[b.chunkIdx]? = some chunk ∧
        chunk.free_list ≠ 0 ∧
        b.cellIdx = leadingZeros W chunk.free_list ∧
        chunk.free_list.testBit (W - 1 - b.cellIdx) = true ∧
        s2.chunks = s.chunks.set b.chunkIdx
          { free_list := chunk.free_list &&& alloc_mask W b.cellIdx
            inner := chunk.inner.set b.cellIdx v } := by
  have hW : 0 < W := boxed_W_pos h
  obtain ⟨chunk, hf, hc, hff, hmask, hs2⟩ := boxed_some_elim h
  have hchunkmem : chunk ∈ s.chunks := List.mem_iff_getElem?.2 ⟨_, hc⟩
  have hlt : chunk.free_list < 2 ^ W := hm chunk hchunkmem
  obtain ⟨hne, hcell⟩ := first_free_eq_some_elim hff
  have hlzlt : leadingZeros W chunk.free_list < W := leadingZeros_lt hne hlt
  have hcellW : b.cellIdx < W := hcell ▸ hlzlt
  refine ⟨hW, hcellW, hmask, chunk, hf, hc, hne, hcell, ?_, hs2⟩
  rw [hcell]
  exact testBit_leadingZeros hlzlt

/-! ### Repeated allocation -/

theorem boxed_decreases_poolFree {V : Type} {W N : Nat}
    {s : SlabAllocator V W N} {v : V} {b : BoxT} {s2 : SlabAllocator V W N}
    (hm : masksLT s) (h : s.boxed v = some (b, s2)) :
    poolFree s2 + 1 = poolFree s ∧ masksLT s2 := by
  obtain ⟨hW, hcellW, hmask, chunk, hf, hc, hne, hcell, hbit, hs2⟩ :=
    boxed_some_strong hm h
  have hchunkmem : chunk ∈ s.chunks := List.mem_iff_getElem?.2 ⟨_, hc⟩
  have hlt : chunk.free_list < 2 ^ W := hm chunk hchunkmem
  constructor
  · unfold poolFree
    rw [hs2]
    have hsum := sum_map_set (fun c => maskFree W c.free_list) s.chunks
      b.chunkIdx chunk
      { free_list := chunk.free_list &&& alloc_mask W b.cellIdx
        inner := chunk.inner.set b.cellIdx v } hc
    have hdec := maskFree_clear_bit hW hlt (by omega) hbit
    simp only at hsum
    omega
  · intro c hcmem
    rw [hs2] at hcmem
    rcases List.mem_or_eq_of_mem_set hcmem with hmem | heq
    · exact hm c hmem
    · subst heq
      exact lt_of_le_of_lt Nat.and_le_left hlt

theorem allocRun_stuck {V : Type} {W N : Nat} {s : SlabAllocator V W N}
    (h : s.find_chunk_with_space = none) (vs : List V) :
    allocRun s vs = (0, s) := by
  induction vs with
  | nil => rfl
  | cons v vs ih =>
    have hb : s.boxed v = none := boxed_none_of_find_none v h
    unfold allocRun
    rw [hb]
    exact ih

theorem allocRun_spec {V : Type} {W N : Nat} (vs : List V) :
    ∀ s : SlabAllocator V W N, masksLT s →
      masksLT (allocRun s vs).2 ∧
      poolFree (allocRun s vs).2 + (allocRun s vs).1 = poolFree s ∧
      ((allocRun s vs).2.find_chunk_with_space = none ∨
        (allocRun s vs).1 = vs.length) := by
  induction vs with
  | nil =>
    intro s hm
    exact ⟨hm, by simp [allocRun], Or.inr rfl⟩
  | cons v vs ih =>
    intro s hm
    cases hb : s.boxed v with
    | none =>
      have hf : s.find_chunk_with_space = none := (boxed_eq_none_iff hm).1 hb
      rw [allocRun_stuck hf (v :: vs)]
      exact ⟨hm, by simp, Or.inl hf⟩
    | some r =>
      obtain ⟨b, s2⟩ := r
      have hball := boxed_decreases_poolFree hm hb
      have hrun : allocRun s (v :: vs) =
          ((allocRun s2 vs).1 + 1, (allocRun s2 vs).2) := by
        simp only [allocRun, hb]
      rw [hrun]
      obtain ⟨ih1, ih2, ih3⟩ := ih s2 hball.2
      refine ⟨ih1, ?_, ?_⟩
      · show poolFree (allocRun s2 vs).2 + ((allocRun s2 vs).1 + 1) = poolFree s
        omega
      · rcases ih3 with h3 | h3
        · exact Or.inl h3
        · refine Or.inr ?_
          show (allocRun s2 vs).1 + 1 = (v :: vs).length
          rw [h3, List.length_cons]

theorem masksLT_new {V : Type} {W N : Nat} (junk : V) :
    masksLT (SlabAllocator.new V W N junk) := by
  intro c hc
  have hc2 := List.eq_of_mem_replicate hc
  subst hc2
  exact Nat.sub_lt (pow_pos (by decide) _) (by decide)

theorem poolFree_new {V : Type} (W N : Nat) (junk : V) :
    poolFree (SlabAllocator.new V W N junk) = N * W := by
  unfold poolFree SlabAllocator.new
  simp [Chunk.new, List.map_replicate, List.sum_replicate, maskFree_all_ones,
    smul_eq_mul]

theorem all_full_of_poolFree_zero {V : Type} {W N : Nat}
    {s : SlabAllocator V W N} (hm : masksLT s) (h : poolFree s = 0) :
    ∀ c ∈ s.chunks, c.full = true := by
  intro c hc
  have hz : maskFree W c.free_list = 0 :=
    List.sum_eq_zero_iff.1 h (maskFree W c.free_list)
      (List.mem_map_of_mem _ hc)
  have := maskFree_eq_zero hz (hm c hc)
  simp [Chunk.full, this]

/-! ### Handle-uniqueness invariant -/

theorem distinctCells_iff {l : List BoxT} :
    distinctCells l = true ↔
      l.Pairwise fun a b =>
        ¬(a.chunkIdx = b.chunkIdx ∧ a.cellIdx = b.cellIdx) := by
  induction l with
  | nil => simp [distinctCells]
  | cons b rest ih =>
    rw [distinctCells, Bool.and_eq_true, List.all_eq_true, List.pairwise_cons,
      ih]
    constructor
    · rintro ⟨h1, h2⟩
      refine ⟨fun a ha => ?_, h2⟩
      have hba := h1 a ha
      rintro ⟨hc1, hc2⟩
      simp [hc1, hc2] at hba
    · rintro ⟨h1, h2⟩
      refine ⟨fun a ha => ?_, h2⟩
      have hba := h1 a ha
      by_cases hcq : b.chunkIdx = a.chunkIdx
      · have hcell : b.cellIdx ≠ a.cellIdx := fun hcl => hba ⟨hcq, hcl⟩
        simp [hcell]
      · simp [hcq]

theorem pairwise_eraseIdx_rel {α : Type} {R : α → α → Prop} :
    ∀ {l : List α} {i : Nat} {b : α}, l.Pairwise R → l[i]? = some b →
      ∀ a ∈ l.eraseIdx i, R b a ∨ R a b := by
  intro l
  induction l with
  | nil => intro i b hp hb a ha; simp at hb
  | cons x xs ih =>
    intro i b hp hb a ha
    rcases List.pairwise_cons.1 hp with ⟨hx, hxs⟩
    cases i with
    | zero =>
      simp only [List.getElem?_cons_zero, Option.some_inj] at hb
      subst hb
      rw [List.eraseIdx_cons_zero] at ha
      exact Or.inl (hx a ha)
    | succ j =>
      simp only [List.getElem?_cons_succ] at hb
      rw [List.eraseIdx_cons_succ] at ha
      rcases List.mem_cons.1 ha with rfl | ha2
      · exact Or.inr (hx b (List.mem_iff_getElem?.2 ⟨j, hb⟩))
      · exact ih hxs hb a ha2

theorem step_preserves_Inv {V : Type} {W N : Nat} {st : SysState V W N}
    (hinv : Inv st) (op : Op V) (hop : ∀ i, op ≠ Op.cloneH i) :
    Inv (step st op) := by
  obtain ⟨hmlt, hhand, hpw⟩ := hinv
  cases op with
  | cloneH i => exact absurd rfl (hop i)
  | alloc v =>
    cases hb : st.pool.boxed v with
    | none =>
      simp only [step, hb]
      exact ⟨hmlt, hhand, hpw⟩
    | some r =>
      obtain ⟨b, p2⟩ := r
      simp only [step, hb]
      obtain ⟨hW, hcellW, hmaskb, chunk, hf, hc, hne0, hcell, hbit, hs2⟩ :=
        boxed_some_strong hmlt hb
      have hmlt2 : masksLT p2 := (boxed_decreases_poolFree hmlt hb).2
      have hidx : b.chunkIdx < st.pool.chunks.length :=
        (List.getElem?_eq_some.1 hc).1
      have hlt : chunk.free_list < 2 ^ W :=
        hmlt chunk (List.mem_iff_getElem?.2 ⟨_, hc⟩)
      have hget2 : p2.chunks[b.chunkIdx]? = some
          { free_list := chunk.free_list &&& alloc_mask W b.cellIdx
            inner := chunk.inner.set b.cellIdx v } := by
        rw [hs2]
        exact List.getElem?_set_self hidx
      refine ⟨hmlt2, ?_, ?_⟩
      · intro a ha
        rcases List.mem_cons.1 ha with rfl | ha2
        · refine ⟨hcellW, hmaskb, _, hget2, ?_⟩
          simp only
          rw [and_alloc_mask_testBit hW hlt]
          simp
        · obtain ⟨hacw, hafm, c, hacg, habit⟩ := hhand a ha2
          by_cases hceq : a.chunkIdx = b.chunkIdx
          · rw [hceq, hc] at hacg
            obtain rfl := Option.some_inj.1 hacg.symm
            refine ⟨hacw, hafm, _, by rw [hceq]; exact hget2, ?_⟩
            simp only
            rw [and_alloc_mask_testBit hW hlt, habit]
            simp
          · refine ⟨hacw, hafm, c, ?_, habit⟩
            rw [hs2, List.getElem?_set_ne fun h => hceq h.symm]
            exact hacg
      · rw [List.pairwise_cons]
        refine ⟨fun a ha => ?_, hpw⟩
        rintro ⟨hceq, hcleq⟩
        obtain ⟨hacw, hafm, c, hacg, habit⟩ := hhand a ha
        rw [← hcleq] at habit
        rw [← hceq, hc] at hacg
        obtain rfl := Option.some_inj.1 hacg.symm
        rw [habit] at hbit
        exact Bool.false_ne_true hbit
  | dropH i =>
    cases hl : st.live[i]? with
    | none =>
      simp only [step, hl]
      exact ⟨hmlt, hhand, hpw⟩
    | some b =>
      simp only [step, hl]
      have hbmem : b ∈ st.live := List.mem_iff_getElem?.2 ⟨_, hl⟩
      obtain ⟨hcw, hfm, c, hcg, hbitf⟩ := hhand b hbmem
      have hW : 0 < W := by omega
      have hidx : b.chunkIdx < st.pool.chunks.length :=
        (List.getElem?_eq_some.1 hcg).1
      have hclt : c.free_list < 2 ^ W :=
        hmlt c (List.mem_iff_getElem?.2 ⟨_, hcg⟩)
      have hdb : st.pool.dropBox b =
          ⟨st.pool.chunks.set b.chunkIdx
            { c with free_list := c.free_list ||| b.free_mask }⟩ := by
        unfold SlabAllocator.dropBox
        rw [hcg]
      have hfm2 : b.free_mask = 2 ^ (W - 1 - b.cellIdx) := by
        rw [hfm, free_mask_eq]
      have hjlt : W - 1 - b.cellIdx < W := by omega
      have hget2 : (st.pool.dropBox b).chunks[b.chunkIdx]? =
          some { c with free_list := c.free_list ||| b.free_mask } := by
        rw [hdb]
        exact List.getElem?_set_self hidx
      refine ⟨?_, ?_, ?_⟩
      · intro c2 hc2
        rw [hdb] at hc2
        rcases List.mem_or_eq_of_mem_set hc2 with hmem | heq
        · exact hmlt c2 hmem
        · subst heq
          simp only
          rw [hfm2]
          exact Nat.or_lt_two_pow hclt
            (Nat.pow_lt_pow_right (by decide) hjlt)
      · intro a ha
        have hasub : a ∈ st.live := (List.eraseIdx_sublist _ i).subset ha
        obtain ⟨hacw, hafm, ca, hacg, habit⟩ := hhand a hasub
        by_cases hceq : a.chunkIdx = b.chunkIdx
        · rw [hceq, hcg] at hacg
          obtain rfl := Option.some_inj.1 hacg.symm
          refine ⟨hacw, hafm, _, by rw [hceq]; exact hget2, ?_⟩
          simp only
          rw [hfm2, or_two_pow_testBit]
          have hrel := pairwise_eraseIdx_rel hpw hl a ha
          have hcne : b.cellIdx ≠ a.cellIdx := by
            rcases hrel with h | h
            · exact fun hcl => h ⟨hceq.symm, hcl⟩
            · exact fun hcl => h ⟨hceq, hcl.symm⟩
          have hne2 : W - 1 - b.cellIdx ≠ W - 1 - a.cellIdx := by omega
          simp [habit, hne2]
        · refine ⟨hacw, hafm, ca, ?_, habit⟩
          rw [hdb]
          rw [List.getElem?_set_ne fun h => hceq h.symm]
          exact hacg
      · exact List.Pairwise.sublist (List.eraseIdx_sublist _ _) hpw
  | write i v =>
    cases hl : st.live[i]? with
    | none =>
      simp only [step, hl]
      exact ⟨hmlt, hhand, hpw⟩
    | some b =>
      simp only [step, hl]
      cases hcg : st.pool.chunks[b.chunkIdx]? with
      | none =>
        have hwb : st.pool.writeBox b v = st.pool := by
          unfold SlabAllocator.writeBox
          rw [hcg]
        rw [hwb]
        exact ⟨hmlt, hhand, hpw⟩
      | some c =>
        have hwb : st.pool.writeBox b v =
            ⟨st.pool.chunks.set b.chunkIdx
              { c with inner := c.inner.set b.cellIdx v }⟩ := by
          unfold SlabAllocator.writeBox
          rw [hcg]
        rw [hwb]
        have hidx : b.chunkIdx < st.pool.chunks.length :=
          (List.getElem?_eq_some.1 hcg).1
        refine ⟨?_, ?_, hpw⟩
        · intro c2 hc2
          rcases List.mem_or_eq_of_mem_set hc2 with hmem | heq
          · exact hmlt c2 hmem
          · subst heq
            exact hmlt c (List.mem_iff_getElem?.2 ⟨_, hcg⟩)
        · intro a ha
          obtain ⟨hacw, hafm, ca, hacg, habit⟩ := hhand a ha
          by_cases hceq : a.chunkIdx = b.chunkIdx
          · rw [hceq, hcg] at hacg
            obtain rfl := Option.some_inj.1 hacg.symm
            exact ⟨hacw, hafm,
              { free_list := ca.free_list, inner := ca.inner.set b.cellIdx v },
              by rw [hceq]; exact List.getElem?_set_self hidx, habit⟩
          · refine ⟨hacw, hafm, ca, ?_, habit⟩
            rw [List.getElem?_set_ne fun h => hceq h.symm]
            exact hacg

theorem run_preserves_Inv {V : Type} {W N : Nat} (ops : List (Op V)) :
    ∀ st : SysState V W N, Inv st →
      (∀ op ∈ ops, ∀ i, op ≠ Op.cloneH i) → Inv (run st ops) := by
  induction ops with
  | nil => intro st h _; exact h
  | cons op ops ih =>
    intro st h hnc
    have h1 := step_preserves_Inv h op (hnc op (List.mem_cons_self _ _))
    exact ih _ h1 fun op2 hm i => hnc op2 (List.mem_cons_of_mem _ hm) i

theorem Inv_init {V : Type} (W N : Nat) (junk : V) :
    Inv (initState V W N junk) := by
  refine ⟨masksLT_new junk, ?_, ?_⟩
  · intro b hb
    simp [initState] at hb
  · exact List.Pairwise.nil

/-! ### Releasing handles -/

theorem listOr_perm {l1 l2 : List Nat} (h : l1.Perm l2) :
    listOr l1 = listOr l2 := by
  induction h with
  | nil => rfl
  | cons x _ ih =>
    show x ||| listOr _ = x ||| listOr _
    rw [ih]
  | swap x y l =>
    show y ||| (x ||| listOr l) = x ||| (y ||| listOr l)
    rw [← Nat.or_assoc, ← Nat.or_assoc, Nat.or_comm y x]
  | trans _ _ ih1 ih2 => rw [ih1, ih2]

theorem releaseAll_eq {V : Type} {W : Nat} (masks : List Nat) :
    ∀ c : Chunk V W, releaseAll c masks =
      { free_list := c.free_list ||| listOr masks, inner := c.inner } := by
  induction masks with
  | nil =>
    intro c
    show c = { free_list := c.free_list ||| listOr [], inner := c.inner }
    have : c.free_list ||| listOr [] = c.free_list := Nat.or_zero _
    rw [this]
  | cons m ms ih =>
    intro c
    show releaseAll { free_list := c.free_list ||| m, inner := c.inner } ms = _
    rw [ih]
    have : (c.free_list ||| m) ||| listOr ms = c.free_list ||| listOr (m :: ms) := by
      show _ = c.free_list ||| (m ||| listOr ms)
      rw [Nat.or_assoc]
    rw [this]

/-! ### Claim C1 -/

/-- C1, counterexample: the claim says the scan covers the full range
`0..N` and the compile-time-sized pool imposes no cap on usable chunks, so
for `N ≥ usize::BITS` a chunk with a free cell is always found. On the
64-chunk pool `poolCap` (word width 64) whose chunks 0..62 are full and
whose chunk 63 is fully free, `boxed` nevertheless returns `none`: the
scan stops after `CHUNK_MAX = usize::BITS - 1 = 63` probes and never
reaches chunk 63. -/
theorem C1_counterexample :
    poolCap.boxed 7 = none ∧
      (poolCap.chunks[63]?).map Chunk.full = some false ∧
      poolCap.chunks.length = 64 :=
  ⟨rfl, rfl, rfl⟩

/-- C1, amended: `boxed` scans chunk indices `0..min N (usize::BITS - 1)`
in order and returns `none` exactly when every chunk in that range is
full; chunks at index ≥ `usize::BITS - 1` are never examined, so the
compile-time-sized pool does cap the usable chunks at `CHUNK_MAX`. -/
theorem C1_scan_range {V : Type} {W N : Nat} (s : SlabAllocator V W N)
    (v : V) (hlen : s.chunks.length = N) (hmlt : masksLT s) :
    s.boxed v = none ↔
      ∀ j < min N (CHUNK_MAX W), ∃ c, s.chunks[j]? = some c ∧ c.full = true := by
  rw [boxed_eq_none_iff hmlt]
  unfold SlabAllocator.find_chunk_with_space
  rw [findFrom_none_iff]
  constructor
  · intro h j hj
    exact h j (Nat.zero_le j) (by omega) (by omega)
  · intro h j _ hj1 hj2
    exact h j (by omega)

/-- C1, witness for the amended theorem: on a one-chunk pool (word width
2) whose chunk is full, `boxed` returns `none`, and indeed every chunk in
the scanned range is full. -/
theorem C1_scan_range_witness :
    (⟨[⟨0, [9, 9]⟩]⟩ : SlabAllocator Nat 2 1).boxed 5 = none :=
  (@C1_scan_range Nat 2 1 ⟨[⟨0, [9, 9]⟩]⟩ 5 (by decide)
    (by intro c hc; rw [List.mem_singleton] at hc; subst hc; decide)).2
    (by decide)

/-! ### Claim C2 -/

/-- C2, counterexample: the claim says `first_free` is computed as the
count of leading one-bits of the free mask and returns `none` exactly when
that count equals the word width. On a fully free chunk (word width 64,
mask all ones) the count of leading one-bits is 64 = the word width, yet
`first_free` returns `some 0` (the code counts leading zero-bits). -/
theorem C2_counterexample :
    (⟨2 ^ 64 - 1, List.replicate 64 0⟩ : Chunk Nat 64).first_free = some 0 ∧
      leadingOnes 64
        ((⟨2 ^ 64 - 1, List.replicate 64 0⟩ : Chunk Nat 64).free_list) = 64 :=
  ⟨rfl, rfl⟩

/-- C2, amended: `first_free` returns the lowest-indexed free cell under
the MSB-first convention, computed as the count of leading *zero*-bits of
the free mask, and returns `none` exactly when that count equals the word
width (the mask is all zeros, i.e. the chunk is full). -/
theorem C2_first_free_leading_zeros {V : Type} {W : Nat} (c : Chunk V W)
    (hm : c.free_list < 2 ^ W) :
    (c.first_free = none ↔ leadingZeros W c.free_list = W) ∧
      (c.first_free = none ↔ c.full = true) ∧
      ∀ k, c.first_free = some k →
        k = leadingZeros W c.free_list ∧ k < W ∧
          c.free_list.testBit (W - 1 - k) = true ∧
          ∀ j, j < k → c.free_list.testBit (W - 1 - j) = false := by
  have hlzW : leadingZeros W c.free_list = W ↔ c.free_list = 0 := by
    constructor
    · intro h
      by_contra hne
      exact absurd h (Nat.ne_of_lt (leadingZeros_lt hne hm))
    · intro h
      rw [h, leadingZeros_zero]
  refine ⟨?_, ?_, ?_⟩
  · rw [first_free_eq_none_iff c hm, hlzW]
  · rw [first_free_eq_none_iff c hm]
    simp [Chunk.full]
  · intro k hk
    obtain ⟨hne, hkeq⟩ := first_free_eq_some_elim hk
    have hlzlt : leadingZeros W c.free_list < W := leadingZeros_lt hne hm
    have hkW : k < W := hkeq ▸ hlzlt
    refine ⟨hkeq, hkW, ?_, ?_⟩
    · rw [hkeq]
      exact testBit_leadingZeros hlzlt
    · intro j hj
      exact testBit_lt_leadingZeros j (hkeq ▸ hj)

/-- C2, witness for the amended theorem: on a chunk (word width 4) with
mask `0b0011`, the two claims of the amended statement hold and
`first_free` returns cell 2, whose bit is the third-most-significant. -/
theorem C2_first_free_witness :
    (⟨3, [0, 0, 0, 0]⟩ : Chunk Nat 4).first_free = some 2 ∧
      (2 : Nat) = leadingZeros 4 3 ∧ (2 : Nat) < 4 ∧
      Nat.testBit 3 (4 - 1 - 2) = true ∧
      ∀ j, j < 2 → Nat.testBit 3 (4 - 1 - j) = false :=
  ⟨rfl, ((@C2_first_free_leading_zeros Nat 4 ⟨3, [0, 0, 0, 0]⟩
    (by decide)).2.2 2 rfl)⟩

/-! ### Claim C3 -/

/-- C3, counterexample: the claim quantifies over all sequences of the
public operations *including handle clone*, but `Box` derives `Clone`
(a plain field-for-field copy), so allocating one cell and cloning its
handle yields a reachable state with two live handles referencing the same
(chunk, cell) pair. -/
theorem C3_counterexample :
    ¬ AtMostOneHandlePerCell
        (run (initState Nat 2 1 0) [Op.alloc 5, Op.cloneH 0]) := by
  unfold AtMostOneHandlePerCell
  decide

/-- C3, amended: in every state reachable from a freshly constructed pool
by allocate, handle write, and handle drop — every public operation except
the derived `Clone` of the handle — at most one live handle exists per
cell. -/
theorem C3_unique_handles {V : Type} {W N : Nat} (junk : V)
    (ops : List (Op V)) (hnc : ∀ op ∈ ops, ∀ i, op ≠ Op.cloneH i) :
    AtMostOneHandlePerCell (run (initState V W N junk) ops) := by
  have h := run_preserves_Inv ops (initState V W N junk)
    (Inv_init W N junk) hnc
  exact distinctCells_iff.2 h.2.2

/-- C3, witness for the amended theorem: two allocations and a drop on a
one-chunk pool keep the live handles on distinct cells. -/
theorem C3_unique_handles_witness :
    AtMostOneHandlePerCell
      (run (initState Nat 2 1 0) [Op.alloc 5, Op.alloc 6, Op.dropH 0]) :=
  C3_unique_handles 0 [Op.alloc 5, Op.alloc 6, Op.dropH 0] (by
    intro op hop i
    simp only [List.mem_cons, List.not_mem_nil, or_false] at hop
    rcases hop with rfl | rfl | rfl <;> exact fun h => Op.noConfusion h)

/-! ### Claim C4 -/

/-- C4: from a fresh pool, for every word width `W` and pool size `N`, any
sequence of allocations (no releases) has at most `N * W` successes, and
after `N * W` allocation attempts the next attempt returns `none`. -/
theorem C4_capacity {V : Type} {W N : Nat} (junk : V) (vs : List V) (v : V) :
    (allocRun (SlabAllocator.new V W N junk) vs).1 ≤ N * W ∧
      (vs.length = N * W →
        ((allocRun (SlabAllocator.new V W N junk) vs).2).boxed v = none) := by
  obtain ⟨hm1, hm2, hm3⟩ :=
    allocRun_spec vs (SlabAllocator.new V W N junk) (masksLT_new junk)
  rw [poolFree_new W N junk] at hm2
  constructor
  · omega
  · intro hlen
    rcases hm3 with h | h
    · exact boxed_none_of_find_none v h
    · have hzero :
          poolFree (allocRun (SlabAllocator.new V W N junk) vs).2 = 0 := by
        omega
      apply boxed_none_of_find_none
      unfold SlabAllocator.find_chunk_with_space
      exact findFrom_none_of_all_full
        (all_full_of_poolFree_zero hm1 hzero) 0 (CHUNK_MAX W)

/-- C4, witness: a one-chunk pool of width 2 accepts at most 2 values and
the attempt after 2 attempts returns `none`. -/
theorem C4_capacity_witness :
    (allocRun (SlabAllocator.new Nat 2 1 0) [5, 6]).1 ≤ 1 * 2 ∧
      ((allocRun (SlabAllocator.new Nat 2 1 0) [5, 6]).2).boxed 7 = none :=
  ⟨(C4_capacity 0 [5, 6] 7).1, (C4_capacity 0 [5, 6] 7).2 (by decide)⟩

/-! ### Claim C5 -/

/-- C5: if the free mask's zero bits are covered by the masks of the
outstanding handles (`free_list ||| listOr masks = all ones`, which holds
for the set of all outstanding handles of a chunk), then releasing every
handle in any order returns the chunk to the fully free mask, and the
resulting chunk state is the same for every release order. -/
theorem C5_release_order {V : Type} {W : Nat} (c : Chunk V W)
    (masks masks2 : List Nat) (hperm : masks.Perm masks2)
    (hcover : c.free_list ||| listOr masks = 2 ^ W - 1) :
    (releaseAll c masks2).free_list = 2 ^ W - 1 ∧
      releaseAll c masks2 = releaseAll c masks := by
  have h2 := releaseAll_eq masks2 c
  have h1 := releaseAll_eq masks c
  rw [h1, h2, ← listOr_perm hperm]
  exact ⟨hcover, rfl⟩

/-- C5, witness: a width-2 chunk with both cells allocated and the two
handle masks released in either order returns to mask `0b11`. -/
theorem C5_release_order_witness :
    (releaseAll (⟨0, [7, 7]⟩ : Chunk Nat 2) [1, 2]).free_list = 2 ^ 2 - 1 ∧
      releaseAll (⟨0, [7, 7]⟩ : Chunk Nat 2) [1, 2] =
        releaseAll (⟨0, [7, 7]⟩ : Chunk Nat 2) [2, 1] :=
  C5_release_order ⟨0, [7, 7]⟩ [2, 1] [1, 2] (by decide) (by decide)

/-! ### Claim C6 -/

/-- C6: whenever `boxed value` succeeds on a well-formed pool, reading the
returned handle (`as_ref` / deref) on the resulting pool state yields
exactly the allocated value. -/
theorem C6_round_trip {V : Type} {W N : Nat} {s : SlabAllocator V W N}
    {v : V} {b : BoxT} {s2 : SlabAllocator V W N} (hm : masksLT s)
    (hlen : ∀ c ∈ s.chunks, c.inner.length = W)
    (h : s.boxed v = some (b, s2)) :
    s2.readBox b = some v := by
  obtain ⟨hW, hcellW, hmaskb, chunk, hf, hc, hne0, hcell, hbit, hs2⟩ :=
    boxed_some_strong hm h
  have hidx : b.chunkIdx < s.chunks.length := (List.getElem?_eq_some.1 hc).1
  have hinlen : chunk.inner.length = W :=
    hlen chunk (List.mem_iff_getElem?.2 ⟨_, hc⟩)
  have hget2 : s2.chunks[b.chunkIdx]? = some
      { free_list := chunk.free_list &&& alloc_mask W b.cellIdx
        inner := chunk.inner.set b.cellIdx v } := by
    rw [hs2]
    exact List.getElem?_set_self hidx
  unfold SlabAllocator.readBox
  rw [hget2, Option.some_bind]
  exact List.getElem?_set_self (by rw [hinlen]; exact hcellW)

/-- C6, witness: allocating 5 into a fresh one-chunk pool of width 2 and
reading the returned handle yields 5. -/
theorem C6_round_trip_witness :
    (⟨[⟨1, [5, 0]⟩]⟩ : SlabAllocator Nat 2 1).readBox ⟨2, 0, 0⟩ = some 5 :=
  @C6_round_trip Nat 2 1 (SlabAllocator.new Nat 2 1 0) 5 ⟨2, 0, 0⟩
    ⟨[⟨1, [5, 0]⟩]⟩
    (by intro c hc; rw [List.eq_of_mem_replicate hc]; decide)
    (by intro c hc; rw [List.eq_of_mem_replicate hc]; decide)
    (by decide)

/-! ### Claim C7 -/

/-- C7: every successful allocation is placed in the lowest-indexed chunk
that is not full: the chosen chunk is not full and every chunk of lower
index is full (in particular, starting from a fresh multi-chunk pool,
chunk 1 receives no allocation until chunk 0 is full). -/
theorem C7_lowest_index_first {V : Type} {W N : Nat}
    {s : SlabAllocator V W N} {v : V} {b : BoxT} {s2 : SlabAllocator V W N}
    (h : s.boxed v = some (b, s2)) :
    (∃ c, s.chunks[b.chunkIdx]? = some c ∧ c.full = false) ∧
      ∀ j, j < b.chunkIdx → ∃ c, s.chunks[j]? = some c ∧ c.full = true := by
  obtain ⟨chunk, hf, -, -, -, -⟩ := boxed_some_elim h
  unfold SlabAllocator.find_chunk_with_space at hf
  obtain ⟨-, -, h3, h4⟩ := findFrom_some_elim hf
  exact ⟨h3, fun j hj => h4 j (Nat.zero_le j) hj⟩

/-- C7, witness: on a width-4 two-chunk pool whose chunk 0 is full, the
allocation lands in chunk 1, and chunk 0 (the only lower-indexed chunk) is
full. -/
theorem C7_lowest_index_first_witness :
    (∃ c, (⟨[⟨0, [9, 9, 9, 9]⟩, ⟨15, [0, 0, 0, 0]⟩]⟩ :
        SlabAllocator Nat 4 2).chunks[(⟨8, 1, 0⟩ : BoxT).chunkIdx]? =
          some c ∧ c.full = false) ∧
      ∀ j, j < (⟨8, 1, 0⟩ : BoxT).chunkIdx →
        ∃ c, (⟨[⟨0, [9, 9, 9, 9]⟩, ⟨15, [0, 0, 0, 0]⟩]⟩ :
          SlabAllocator Nat 4 2).chunks[j]? = some c ∧ c.full = true :=
  @C7_lowest_index_first Nat 4 2 ⟨[⟨0, [9, 9, 9, 9]⟩, ⟨15, [0, 0, 0, 0]⟩]⟩
    5 ⟨8, 1, 0⟩ ⟨[⟨0, [9, 9, 9, 9]⟩, ⟨7, [5, 0, 0, 0]⟩]⟩ (by decide)

/-! ### Claim C8 -/

/-- C8: a chunk that is not full (and whose mask is a `W`-bit value, as in
every reachable state) always has `first_free = some _`; in particular the
chunk selected by the allocation scan is not full, so the `unwrap` of
`first_free()` inside `boxed` never fails. -/
theorem C8_first_free_no_panic {V : Type} {W N : Nat}
    (s : SlabAllocator V W N) (c : Chunk V W) (hmlt : masksLT s)
    (hmc : c.free_list < 2 ^ W) (hnf : c.full = false) :
    c.first_free.isSome = true ∧
      ∀ i c2, s.find_chunk_with_space = some i → s.chunks[i]? = some c2 →
        c2.first_free.isSome = true := by
  refine ⟨first_free_isSome_of_not_full hmc hnf, ?_⟩
  intro i c2 hf hc2
  obtain ⟨-, -, ⟨c3, hc3, hfull3⟩, -⟩ := findFrom_some_elim hf
  rw [hc2] at hc3
  obtain rfl := Option.some_inj.1 hc3
  exact first_free_isSome_of_not_full
    (hmlt c2 (List.mem_iff_getElem?.2 ⟨_, hc2⟩)) hfull3

/-- C8, witness: a half-full width-2 chunk has `first_free = some _`, and
on a fresh pool the scanned chunk's `first_free` is `some _`. -/
theorem C8_first_free_no_panic_witness :
    ((⟨1, [5, 0]⟩ : Chunk Nat 2).first_free).isSome = true :=
  (@C8_first_free_no_panic Nat 2 1 (SlabAllocator.new Nat 2 1 0) ⟨1, [5, 0]⟩
    (by intro c hc; rw [List.eq_of_mem_replicate hc]; decide)
    (by decide) (by decide)).1

/-! ### Claim C9 -/

/-- C9: when `boxed` finds no chunk with a free cell it returns `none` and
the pool is completely unchanged: the state after the call equals the
state before, chunk by chunk (masks and cells alike), and no panic occurs
(the operation is total). -/
theorem C9_exhaustion_unchanged {V : Type} {W N : Nat}
    (s : SlabAllocator V W N) (v : V) (h : s.boxed v = none) :
    (s.allocStep v).1 = none ∧ (s.allocStep v).2 = s ∧
      ∀ i : Nat, ((s.allocStep v).2).chunks[i]? = s.chunks[i]? := by
  unfold SlabAllocator.allocStep
  rw [h]
  exact ⟨rfl, rfl, fun i => rfl⟩

/-- C9, witness: on a full one-chunk pool of width 2, allocation returns
`none` and leaves the pool exactly as it was. -/
theorem C9_exhaustion_unchanged_witness :
    ((⟨[⟨0, [8, 9]⟩]⟩ : SlabAllocator Nat 2 1).allocStep 5).1 = none ∧
      ((⟨[⟨0, [8, 9]⟩]⟩ : SlabAllocator Nat 2 1).allocStep 5).2 =
        ⟨[⟨0, [8, 9]⟩]⟩ ∧
      ∀ i : Nat,
        (((⟨[⟨0, [8, 9]⟩]⟩ : SlabAllocator Nat 2 1).allocStep 5).2).chunks[i]? =
          (⟨[⟨0, [8, 9]⟩]⟩ : SlabAllocator Nat 2 1).chunks[i]? :=
  C9_exhaustion_unchanged ⟨[⟨0, [8, 9]⟩]⟩ 5 (by decide)

/-! ### Claim C10 -/

/-- C10: a successful `boxed` modifies exactly one chunk: in that chunk it
clears exactly one bit of the free mask — the allocated cell's bit, which
was previously set — and writes the value into exactly that one cell;
every other chunk, every other mask bit, and every other cell are
unchanged. -/
theorem C10_frame {V : Type} {W N : Nat} {s : SlabAllocator V W N} {v : V}
    {b : BoxT} {s2 : SlabAllocator V W N} (hm : masksLT s)
    (hlen : ∀ c ∈ s.chunks, c.inner.length = W)
    (h : s.boxed v = some (b, s2)) :
    ∃ chunk chunk2,
      s.chunks[b.chunkIdx]? = some chunk ∧
      s2.chunks[b.chunkIdx]? = some chunk2 ∧
      (∀ j, j ≠ b.chunkIdx → s2.chunks[j]? = s.chunks[j]?) ∧
      chunk.free_list.testBit (W - 1 - b.cellIdx) = true ∧
      chunk2.free_list.testBit (W - 1 - b.cellIdx) = false ∧
      (∀ k, k ≠ W - 1 - b.cellIdx →
        chunk2.free_list.testBit k = chunk.free_list.testBit k) ∧
      chunk2.inner[b.cellIdx]? = some v ∧
      (∀ k, k ≠ b.cellIdx → chunk2.inner[k]? = chunk.inner[k]?) := by
  obtain ⟨hW, hcellW, hmaskb, chunk, hf, hc, hne0, hcell, hbit, hs2⟩ :=
    boxed_some_strong hm h
  have hidx : b.chunkIdx < s.chunks.length := (List.getElem?_eq_some.1 hc).1
  have hlt : chunk.free_list < 2 ^ W :=
    hm chunk (List.mem_iff_getElem?.2 ⟨_, hc⟩)
  have hinlen : chunk.inner.length = W :=
    hlen chunk (List.mem_iff_getElem?.2 ⟨_, hc⟩)
  refine ⟨chunk,
    { free_list := chunk.free_list &&& alloc_mask W b.cellIdx
      inner := chunk.inner.set b.cellIdx v },
    hc, by rw [hs2]; exact List.getElem?_set_self hidx, ?_, hbit, ?_, ?_, ?_, ?_⟩
  · intro j hj
    rw [hs2]
    exact List.getElem?_set_ne fun hx => hj hx.symm
  · simp only
    rw [and_alloc_mask_testBit hW hlt]
    simp
  · intro k hk
    simp only
    rw [and_alloc_mask_testBit hW hlt]
    simp [hk]
  · simp only
    exact List.getElem?_set_self (by rw [hinlen]; exact hcellW)
  · intro k hk
    simp only
    exact List.getElem?_set_ne fun hx => hk hx.symm

/-- C10, witness: allocating 5 into a fresh one-chunk pool of width 2
clears exactly the MSB (cell 0) and writes 5 into cell 0, leaving the
other bit and the other cell unchanged. -/
theorem C10_frame_witness :
    ∃ chunk chunk2,
      (SlabAllocator.new Nat 2 1 0).chunks[(⟨2, 0, 0⟩ : BoxT).chunkIdx]? =
        some chunk ∧
      (⟨[⟨1, [5, 0]⟩]⟩ : SlabAllocator Nat 2 1).chunks[(⟨2, 0, 0⟩ :
        BoxT).chunkIdx]? = some chunk2 ∧
      (∀ j, j ≠ (⟨2, 0, 0⟩ : BoxT).chunkIdx →
        (⟨[⟨1, [5, 0]⟩]⟩ : SlabAllocator Nat 2 1).chunks[j]? =
          (SlabAllocator.new Nat 2 1 0).chunks[j]?) ∧
      chunk.free_list.testBit (2 - 1 - (⟨2, 0, 0⟩ : BoxT).cellIdx) = true ∧
      chunk2.free_list.testBit (2 - 1 - (⟨2, 0, 0⟩ : BoxT).cellIdx) = false ∧
      (∀ k, k ≠ 2 - 1 - (⟨2, 0, 0⟩ : BoxT).cellIdx →
        chunk2.free_list.testBit k = chunk.free_list.testBit k) ∧
      chunk2.inner[(⟨2, 0, 0⟩ : BoxT).cellIdx]? = some 5 ∧
      (∀ k, k ≠ (⟨2, 0, 0⟩ : BoxT).cellIdx →
        chunk2.inner[k]? = chunk.inner[k]?) :=
  @C10_frame Nat 2 1 (SlabAllocator.new Nat 2 1 0) 5 ⟨2, 0, 0⟩
    ⟨[⟨1, [5, 0]⟩]⟩
    (by intro c hc; rw [List.eq_of_mem_replicate hc]; decide)
    (by intro c hc; rw [List.eq_of_mem_replicate hc]; decide)
    (by decide)

end Slab
